import Mathlib

/-!
Verification model of the syia-mcp-utils connection and tenant-filtering
utilities.

The TypeScript sources are embedded shallowly:

* JSON payload values (the dynamically shaped objects the response filter
  traverses) become the inductive `Json`.  Only integer numbers are
  modelled; every ownership key (IMO number) in the source domain is an
  integer.
* The module-level mutable state (`companyImoNumbers`, the configured
  company name) becomes explicit parameters.  `getCompanyImoNumbers()` is
  the `companyImos` parameter, `getConfig().companyName` is the
  `McpConfig.companyName` field.
* JavaScript coercions used by the code (`String(x)`, `Number(x)`,
  `Array.prototype.includes` / SameValueZero) are modelled by `jsString`,
  `jsToNumber` (with `none` playing NaN) and explicit comparison helpers.
* `JSON.parse` / `JSON.stringify` round-tripping in the response filter is
  modelled by carrying the parsed structure inside a response item
  (`RespItem.textJson`); a text item whose body does not parse is
  `RespItem.textRaw` and is passed through untouched, exactly as the
  `catch` branch of the source does.
* Asynchronous functions become pure functions; the one place where the
  interleaving of `await` points matters (the connect guard of
  `MongoDBClient.connect`) is modelled as a small-step system over two
  tasks (`stepConnect` / `runTwoTasks`).
-/

/-- JSON-like runtime values as traversed by the response filter.
Objects are ordered association lists, mirroring JavaScript property
order.  `num` carries integers only: all ownership keys are integral. -/
inductive Json where
  | null
  | bool (b : Bool)
  | num (n : Int)
  | str (s : String)
  | arr (xs : List Json)
  | obj (fields : List (String × Json))

/-- Bool test for the JavaScript comparison `x !== null` used on filter
results (`filteredValue !== null`, `filteredContent !== null`). -/
def jsonIsNull : Json → Bool
  | .null => true
  | _ => false

/-- ASCII lower-casing of a character, as `String.prototype.toLowerCase`
acts on the ASCII range (all company names and admin markers are ASCII). -/
def lowerChar (c : Char) : Char :=
  if 'A' ≤ c ∧ c ≤ 'Z' then Char.ofNat (c.toNat + 32) else c

/-- ASCII lower-casing of a string (JavaScript `toLowerCase`). -/
def asciiLower (s : String) : String := ⟨s.data.map lowerChar⟩

/-- Substring containment, JavaScript `String.prototype.includes`. -/
def strContainsSub (hay needle : String) : Bool :=
  (List.range (hay.length + 1)).any fun i => needle.data.isPrefixOf (hay.data.drop i)

mutual
/-- JavaScript `String(x)` on the modelled values: integers print in
decimal, arrays join their elements with commas (null elements print as
the empty string), plain objects print as `[object Object]`. -/
def jsString : Json → String
  | .null => "null"
  | .bool b => if b then "true" else "false"
  | .num n => toString n
  | .str s => s
  | .arr xs => String.intercalate "," (jsStringItems xs)
  | .obj _ => "[object Object]"

/-- Element strings used by `Array.prototype.join`. -/
def jsStringItems : List Json → List String
  | [] => []
  | .null :: rest => "" :: jsStringItems rest
  | x :: rest => jsString x :: jsStringItems rest
end

/-- Whitespace characters trimmed by JavaScript `Number(string)`. -/
def isJsSpace (c : Char) : Bool :=
  c = ' ' ∨ c = '\t' ∨ c = '\n' ∨ c = '\r'

/-- Accumulating decimal parse of a digit list; `none` on a non-digit. -/
def decDigitsGo (acc : Nat) : List Char → Option Nat
  | [] => some acc
  | c :: cs => if c.isDigit then decDigitsGo (acc * 10 + (c.toNat - 48)) cs else none

/-- Decimal parse of a non-empty all-digit list. -/
def decDigits : List Char → Option Nat
  | [] => none
  | cs => decDigitsGo 0 cs

/-- JavaScript `Number(string)` restricted to the strings the code can
meet here: after trimming whitespace, the empty string is 0 and an
optionally signed run of decimal digits is its value; anything else is
NaN (`none`).  (Fractional, exponent and radix forms do not occur for
ownership keys and are mapped to NaN.) -/
def jsNumberOfString (s : String) : Option Int :=
  let t := ((s.data.dropWhile (fun c => isJsSpace c)).reverse.dropWhile
      (fun c => isJsSpace c)).reverse
  match t with
  | [] => some 0
  | '-' :: rest => (decDigits rest).map (fun n => -(n : Int))
  | '+' :: rest => (decDigits rest).map (fun n => (n : Int))
  | _ => (decDigits t).map (fun n => (n : Int))

/-- JavaScript `Number(x)` with `none` playing NaN.  `Number` of an array
coerces through its string form; `Number` of a plain object is NaN. -/
def jsToNumber : Json → Option Int
  | .null => some 0
  | .bool b => some (if b then 1 else 0)
  | .num n => some n
  | .str s => jsNumberOfString s
  | .arr xs => jsNumberOfString (jsString (.arr xs))
  | .obj _ => none

/-- SameValueZero comparison of an array entry against a string, as used
by `companyImos.includes(imoStr)`: only a string entry equal to `t`
matches; entries of any other runtime type never equal a string. -/
def sameValueAsStr (e : Json) (t : String) : Bool :=
  match e with
  | .str u => u == t
  | _ => false

/-! ## imoUtils -/

/-- The fixed admin marker list of `shouldBypassImoFiltering`. -/
def adminCompanies : List String := ["admin", "administrator", "superadmin", "syia"]

/-- Model of `shouldBypassImoFiltering(companyName)`: true when the lower-cased
name contains one of the admin markers as a substring. -/
def shouldBypassImoFiltering (companyName : String) : Bool :=
  adminCompanies.any fun admin =>
    strContainsSub (asciiLower companyName) (asciiLower admin)

/-- The `/^\d{7}$/` test of `isValidImoForCompany`. -/
def isSevenDigitImo (s : String) : Bool :=
  s.length == 7 && s.data.all (fun c => c.isDigit)

/-- Model of `isValidImoForCompany(imoNumber)` from imoUtils: stringify the value,
require a 7-digit form, and — when the company list is empty — allow the
value; otherwise test literal membership of the canonical string in the
company list (SameValueZero, so a numeric entry never matches).
The module global `companyImoNumbers` is the `companyImos` parameter;
its TypeScript annotation is `string[]` but the values are stored from
the backend unvalidated, so entries are modelled as runtime values. -/
def isValidImoForCompany (imoNumber : Json) (companyImos : List Json) : Bool :=
  let imoStr := jsString imoNumber
  if !(isSevenDigitImo imoStr) then false
  else if companyImos.length == 0 then true
  else companyImos.any fun e => sameValueAsStr e imoStr

/-- JavaScript falsiness of the optional `companyName` from config:
absent or the empty string. -/
def optFalsyStr : Option String → Bool
  | none => true
  | some s => s == ""

/-- Model of `isVesselAuthorizedForCompanyGeneric(imo)`: admin bypass, deny on an
empty company list, otherwise membership after coercing both sides with
`Number` (`Option Int` equality matches SameValueZero, including the
NaN-equals-NaN behaviour of `includes`). -/
def isVesselAuthorizedForCompanyGeneric (companyName : Option String)
    (companyImos : List Json) (imo : Json) : Bool :=
  if optFalsyStr companyName || shouldBypassImoFiltering (companyName.getD "") then true
  else if companyImos.length == 0 then false
  else (companyImos.map jsToNumber).contains (jsToNumber imo)

/-- The configuration slice the filter reads (`getConfig().companyName`). -/
structure McpConfig where
  companyName : Option String

/-! ## responseFilter -/

/-- The fixed alias list `IMO_FIELD_NAMES`. -/
def IMO_FIELD_NAMES : List String :=
  ["imo", "vesselImo", "imoNumber", "IMO", "vessel_imo", "imo_number", "vesselIMO"]

/-- Model of `findImoField(obj)`: on a plain object, the first alias of
`IMO_FIELD_NAMES` that is present with a non-null value, with that value;
`null` for anything that is not a plain object (arrays own no such
properties). -/
def findImoField (j : Json) : Option (String × Json) :=
  match j with
  | .obj fields =>
    IMO_FIELD_NAMES.findSome? fun name =>
      match fields.lookup name with
      | some .null => none
      | some v => some (name, v)
      | none => none
  | _ => none

/-- The direct-field test at the head of `checkForUnauthorizedImo`:
`some location` when the node carries a recognized ownership field whose
value fails `isValidImoForCompany`. -/
def checkDirectImoField (imos : List Json) (fields : List (String × Json)) : Option String :=
  match findImoField (.obj fields) with
  | some (name, v) =>
    if !(isValidImoForCompany v imos) then some (name ++ ": " ++ jsString v)
    else none
  | none => none

mutual
/-- Model of `checkForUnauthorizedImo(obj)`: `some location` when an unauthorized
ownership key is found in the subtree, `none` otherwise.  Scalars are
never flagged; an object is tested directly (`checkDirectImoField`) and
then its entries are traversed; `Object.entries` of an array yields its
elements keyed by index strings, traversed by the same loop body.  The
recursive call the source makes on an object-valued entry is unfolded by
one definitional step inside the loops (the inner
`match checkDirectImoField .. with .. checkEntriesForImo ..` is exactly
`checkForUnauthorizedImo` at that object). -/
def checkForUnauthorizedImo (imos : List Json) : Json → Option String
  | .obj fields =>
    match checkDirectImoField imos fields with
    | some loc => some loc
    | none => checkEntriesForImo imos fields
  | .arr xs => checkIndexedEntries imos 0 xs
  | _ => none

/-- Entry loop over `Object.entries` of a plain object: array values
have each element checked, object values recurse with a `key.` location
prefix, scalars are skipped. -/
def checkEntriesForImo (imos : List Json) : List (String × Json) → Option String
  | [] => none
  | (k, v) :: rest =>
    match v with
    | .arr ys =>
      match checkElemsForImo imos k 0 ys with
      | some loc => some loc
      | none => checkEntriesForImo imos rest
    | .obj fs =>
      match (match checkDirectImoField imos fs with
             | some loc => some loc
             | none => checkEntriesForImo imos fs) with
      | some loc => some (k ++ "." ++ loc)
      | none => checkEntriesForImo imos rest
    | _ => checkEntriesForImo imos rest

/-- Entry loop over `Object.entries` of an array: the same body with
index strings as keys. -/
def checkIndexedEntries (imos : List Json) (i : Nat) : List Json → Option String
  | [] => none
  | v :: rest =>
    match v with
    | .arr ys =>
      match checkElemsForImo imos (toString i) 0 ys with
      | some loc => some loc
      | none => checkIndexedEntries imos (i + 1) rest
    | .obj fs =>
      match (match checkDirectImoField imos fs with
             | some loc => some loc
             | none => checkEntriesForImo imos fs) with
      | some loc => some (toString i ++ "." ++ loc)
      | none => checkIndexedEntries imos (i + 1) rest
    | _ => checkIndexedEntries imos (i + 1) rest

/-- Element loop for an array-valued entry. -/
def checkElemsForImo (imos : List Json) (k : String) (i : Nat) : List Json → Option String
  | [] => none
  | y :: ys =>
    match checkForUnauthorizedImo imos y with
    | some loc => some (k ++ "[" ++ toString i ++ "]." ++ loc)
    | none => checkElemsForImo imos k (i + 1) ys
end

/-- The loop body of the entry loops, recovered as one function of the
entry (proved to agree with both loops below): array values get the
element loop, object values get the recursive check with a `key.`
prefix, scalars are skipped. -/
def checkEntryValue (imos : List Json) (k : String) (v : Json) : Option String :=
  match v with
  | .arr ys => checkElemsForImo imos k 0 ys
  | .obj fs => (checkForUnauthorizedImo imos (.obj fs)).map (fun loc => k ++ "." ++ loc)
  | _ => none

/-- The statistics record threaded through the filter.  The wall-clock
`processingTimeMs` field of the source is kept but not advanced (the
model has no clock). -/
structure FilterStats where
  itemsProcessed : Nat
  itemsFiltered : Nat
  unauthorizedImos : List String
  processingTimeMs : Nat

/-- The fresh statistics record each filtering call starts from. -/
def initialFilterStats : FilterStats := ⟨0, 0, [], 0⟩

/-- Model of `filterArrayByImo(array, stats)`: keep exactly the items in which no
unauthorized ownership key is found, counting every item processed and
recording the location of every rejection.  Kept items are passed through
verbatim (the source pushes `item`, it does not rewrite it). -/
def filterArrayByImo (imos : List Json) : List Json → FilterStats → List Json × FilterStats
  | [], s => ([], s)
  | x :: xs, s =>
    let s1 : FilterStats := { s with itemsProcessed := s.itemsProcessed + 1 }
    match checkForUnauthorizedImo imos x with
    | some loc =>
      filterArrayByImo imos xs
        { s1 with itemsFiltered := s1.itemsFiltered + 1,
                  unauthorizedImos := s1.unauthorizedImos ++ [loc] }
    | none =>
      let r := filterArrayByImo imos xs s1
      (x :: r.1, r.2)

mutual
/-- Model of `filterResponseContent(content, stats)`: arrays are filtered item by
item; a plain object containing an unauthorized key anywhere is replaced
by `null` (the caller drops it); an authorized object is copied field by
field, dropping fields whose filtered value is `null`; scalars pass
through. -/
def filterResponseContent (imos : List Json) : Json → FilterStats → Json × FilterStats
  | .arr xs, s =>
    let r := filterArrayByImo imos xs s
    (.arr r.1, r.2)
  | .obj fields, s =>
    match checkForUnauthorizedImo imos (.obj fields) with
    | some loc =>
      (.null, { s with itemsFiltered := s.itemsFiltered + 1,
                       unauthorizedImos := s.unauthorizedImos ++ [loc] })
    | none =>
      let r := filterFieldsContent imos fields s
      (.obj r.1, r.2)
  | c, s => (c, s)

/-- The field-copy loop of the object case. -/
def filterFieldsContent (imos : List Json) :
    List (String × Json) → FilterStats → List (String × Json) × FilterStats
  | [], s => ([], s)
  | (k, v) :: rest, s =>
    let rv := filterResponseContent imos v s
    let rr := filterFieldsContent imos rest rv.2
    match rv.1 with
    | .null => (rr.1, rr.2)
    | fv => ((k, fv) :: rr.1, rr.2)
end

/-- One item of a `ToolResponse`.  A text item whose body parses as JSON
carries its parsed structure (`textJson`); re-serialising a structure and
parsing it again yields the same structure, which is how the
`JSON.parse`/`JSON.stringify` round trip of the source is modelled.  A
text item whose body does not parse (or is empty) is `textRaw`.  Image
and resource items are `other`, carrying the item object itself. -/
inductive RespItem where
  | textJson (content : Json)
  | textRaw (text : String)
  | other (item : Json)

/-- The per-item loop of `filterResponseByCompanyImos`: parsed text items
are filtered through `filterResponseContent` and dropped when the result
is `null`; unparseable text is kept as is; non-text items are dropped
when `checkForUnauthorizedImo` flags them. -/
def filterRespItems (imos : List Json) : List RespItem → FilterStats → List RespItem × FilterStats
  | [], s => ([], s)
  | .textJson j :: rest, s =>
    let rc := filterResponseContent imos j s
    match rc.1 with
    | .null => filterRespItems imos rest rc.2
    | fc =>
      let rr := filterRespItems imos rest rc.2
      (.textJson fc :: rr.1, rr.2)
  | .textRaw t :: rest, s =>
    let rr := filterRespItems imos rest s
    (.textRaw t :: rr.1, rr.2)
  | .other j :: rest, s =>
    match checkForUnauthorizedImo imos j with
    | none =>
      let rr := filterRespItems imos rest s
      (.other j :: rr.1, rr.2)
    | some loc =>
      filterRespItems imos rest
        { s with itemsFiltered := s.itemsFiltered + 1,
                 unauthorizedImos := s.unauthorizedImos ++ [loc] }

/-- Model of `filterResponseByCompanyImos(response)` (the synchronous variant the
claims cite): admin companies bypass filtering entirely; an empty company
IMO list skips filtering and returns the response unchanged; otherwise
every item is filtered. -/
def filterResponseByCompanyImos (cfg : McpConfig) (companyImos : List Json)
    (response : List RespItem) : List RespItem :=
  if shouldBypassImoFiltering (cfg.companyName.getD "") then response
  else if companyImos.length == 0 then response
  else (filterRespItems companyImos response initialFilterStats).1

/-- The whole body of `filterResponseByCompanyImos` runs inside
`try { ... } catch { return response; }`; a failure anywhere (for example
config resolution throwing) returns the original response.  The `Except`
argument is the outcome of the fallible part of the body. -/
def filterResponseByCompanyImosCaught (cfgResult : Except Unit McpConfig)
    (companyImos : List Json) (response : List RespItem) : List RespItem :=
  match cfgResult with
  | .error _ => response
  | .ok cfg => filterResponseByCompanyImos cfg companyImos response

/-! ## Query scoping -/

/-- Model of `updateTypesenseFilterWithCompanyImos(filter)`: admin companies and a
missing company name skip; an empty company list skips; otherwise an
`imo:[...]` clause is appended with `&&` (or stands alone when the
incoming filter is blank). -/
def updateTypesenseFilterWithCompanyImos (cfg : McpConfig) (companyImos : List Json)
    (filter : String) : String :=
  if optFalsyStr cfg.companyName || shouldBypassImoFiltering (cfg.companyName.getD "") then
    filter
  else if companyImos.length == 0 then filter
  else
    let imoFilter := "imo:[" ++ String.intercalate "," (jsStringItems companyImos) ++ "]"
    if filter.trim != "" then filter ++ " && " ++ imoFilter else imoFilter

/-- A value of a MongoDB filter object: either an ordinary value or the
`{ $in: [...] }` restriction the scoping functions install (its numbers
come from `Number(imo)` and may be NaN, hence `Option Int`). -/
inductive MongoVal where
  | lit (j : Json)
  | inNums (ns : List (Option Int))

/-- JavaScript property assignment on the spread copy
`{ ...filter, imo: ... }`: overwrite an existing key, else append. -/
def setObjField : List (String × MongoVal) → String → MongoVal → List (String × MongoVal)
  | [], key, v => [(key, v)]
  | (k, w) :: rest, key, v =>
    if k == key then (k, v) :: rest else (k, w) :: setObjField rest key v

/-- Model of `updateMongoFilterWithCompanyImosGeneric(filter)`: bypass and
empty-list cases return the filter unchanged; otherwise the `imo` field
is set to an `$in` over the numeric coercions of the company list. -/
def updateMongoFilterWithCompanyImosGeneric (cfg : McpConfig) (companyImos : List Json)
    (filter : List (String × MongoVal)) : List (String × MongoVal) :=
  if optFalsyStr cfg.companyName || shouldBypassImoFiltering (cfg.companyName.getD "") then
    filter
  else if companyImos.length == 0 then filter
  else setObjField filter "imo" (.inNums (companyImos.map jsToNumber))

/-- A stage of an aggregation pipeline: the `$match` on `imo` that the
scoping function prepends, or any other stage left opaque. -/
inductive PipelineStage where
  | matchImoIn (ns : List (Option Int))
  | stage (j : Json)

/-- Model of `updateMongoAggregationWithCompanyImosGeneric(pipeline)`: bypass and
empty-list cases return the pipeline unchanged; otherwise an `imo` match
stage is prepended. -/
def updateMongoAggregationWithCompanyImosGeneric (cfg : McpConfig) (companyImos : List Json)
    (pipeline : List PipelineStage) : List PipelineStage :=
  if optFalsyStr cfg.companyName || shouldBypassImoFiltering (cfg.companyName.getD "") then
    pipeline
  else if companyImos.length == 0 then pipeline
  else .matchImoIn (companyImos.map jsToNumber) :: pipeline

/-! ## Connection management -/

/-- The registry map of `MongoDBConnectionManager` (and its Typesense
twin): composite key to handle identity.  Handle identities are numbers
standing for object references; `nextHandle` is the allocator. -/
structure ConnectionRegistry where
  connections : List (String × Nat)
  nextHandle : Nat

/-- Model of `manager.getClient(uri, dbName)`: look the composite key up; when
absent, construct a handle and register it, then return the registered
handle.  The whole body is synchronous, hence atomic in the event loop. -/
def managerGetClient (reg : ConnectionRegistry) (uri dbName : String) :
    Nat × ConnectionRegistry :=
  let key := uri ++ ":" ++ dbName
  match reg.connections.lookup key with
  | some h => (h, reg)
  | none =>
    (reg.nextHandle, ⟨reg.connections ++ [(key, reg.nextHandle)], reg.nextHandle + 1⟩)

/-- The mutable fields of one `MongoDBClient` shared by concurrent
`connect()` calls, plus a ghost counter of started connect sequences
(`new MongoClient` + transport connect + ping). -/
structure SharedConn where
  clientField : Option Nat
  isConnected : Bool
  connectStarts : Nat

/-- Program counter of one `connect()` invocation on the success path:
the guard check and handle allocation run atomically up to the first
`await this.client.connect()`; the ping is the second `await`;
`isConnected` is set only after the ping resolves. -/
inductive ConnectPc where
  | ready
  | awaitingConnect
  | awaitingPing
  | finished

/-- One atomic step of a `connect()` invocation (success path). -/
def stepConnect (taskId : Nat) (st : SharedConn) : ConnectPc → SharedConn × ConnectPc
  | .ready =>
    if st.isConnected ∧ st.clientField.isSome then (st, .finished)
    else ({ st with clientField := some taskId,
                    connectStarts := st.connectStarts + 1 }, .awaitingConnect)
  | .awaitingConnect => (st, .awaitingPing)
  | .awaitingPing => ({ st with isConnected := true }, .finished)
  | .finished => (st, .finished)

/-- Two `connect()` invocations on the same client, interleaved. -/
structure TwoTasks where
  shared : SharedConn
  pc1 : ConnectPc
  pc2 : ConnectPc

/-- Run a schedule: `true` steps the first task, `false` the second. -/
def runTwoTasks : List Bool → TwoTasks → TwoTasks
  | [], st => st
  | pick :: rest, st =>
    if pick then
      let r := stepConnect 1 st.shared st.pc1
      runTwoTasks rest ⟨r.1, r.2, st.pc2⟩
    else
      let r := stepConnect 2 st.shared st.pc2
      runTwoTasks rest ⟨r.1, st.pc1, r.2⟩

/-- Both tasks poised to run on a never-connected client. -/
def initTwoTasks : TwoTasks := ⟨⟨none, false, 0⟩, .ready, .ready⟩

/-- Result of one run of `connectWithRetry`: the client (by the attempt
number that created it) or `null`, the number of attempts made, and the
inter-attempt delays in milliseconds. -/
structure ConnectRun where
  client : Option Nat
  attempts : Nat
  delays : List Nat

/-- The retry loop of `connectWithRetry(uri, name)`, parametrised by
which attempt numbers succeed (`outcome`): on failure at the last
attempt return `null`, otherwise wait 2000 ms and try again. -/
def connectWithRetryGo (outcome : Nat → Bool) (attempt : Nat) : Nat → ConnectRun
  | 0 => ⟨none, 0, []⟩
  | remaining + 1 =>
    if outcome attempt then ⟨some attempt, 1, []⟩
    else if remaining == 0 then ⟨none, 1, []⟩
    else
      let r := connectWithRetryGo outcome (attempt + 1) remaining
      ⟨r.client, r.attempts + 1, 2000 :: r.delays⟩

/-- Model of `connectWithRetry` with its constants `maxRetries = 5`,
`retryDelayMs = 2000`. -/
def connectWithRetry (outcome : Nat → Bool) : ConnectRun :=
  connectWithRetryGo outcome 1 5

/-- What `getMongoClient` hands its caller on the custom-URI path:
the connected client, or — through `customClient || ({} as MongoClient)`
— a bare empty object when `connectWithRetry` resolved to `null`. -/
inductive JsClient where
  | real (id : Nat)
  | emptyObject

/-- The custom-URI tail of `getMongoClient(uri)`. -/
def getMongoClientCustomUri (outcome : Nat → Bool) : JsClient :=
  match (connectWithRetry outcome).client with
  | some i => .real i
  | none => .emptyObject

/-- The `client` / `isConnected` fields of one `MongoDBClient`. -/
structure MongoClientHandle where
  client : Option Nat
  isConnected : Bool

/-- Result of one run of `MongoDBClient.connect()`: normal return or the
thrown error message, the final handle state, attempts made and delays
slept.  (The `NODE_ENV === 'test'` early return is outside the model.) -/
structure ClientConnectRun where
  result : Except String Unit
  final : MongoClientHandle
  attempts : Nat
  delays : List Nat

/-- The retry loop of `MongoDBClient.connect`: each failed attempt closes
and nulls the client; the last failure throws, leaving the handle
disconnected. -/
def mongoClientConnectGo (outcome : Nat → Bool) (attempt : Nat) : Nat → ClientConnectRun
  | 0 => ⟨.ok (), ⟨none, false⟩, 0, []⟩
  | remaining + 1 =>
    if outcome attempt then ⟨.ok (), ⟨some attempt, true⟩, 1, []⟩
    else if remaining == 0 then
      ⟨.error "Failed to connect to MongoDB after 5 attempts", ⟨none, false⟩, 1, []⟩
    else
      let r := mongoClientConnectGo outcome (attempt + 1) remaining
      ⟨r.result, r.final, r.attempts + 1, 2000 :: r.delays⟩

/-- Model of `MongoDBClient.connect()`: the connected guard, then the retry loop
with `maxRetries = 5`, `retryDelayMs = 2000`. -/
def mongoClientConnect (st : MongoClientHandle) (outcome : Nat → Bool) : ClientConnectRun :=
  if st.isConnected ∧ st.client.isSome then ⟨.ok (), st, 0, []⟩
  else mongoClientConnectGo outcome 1 5

/-! ## Derived predicates and value components used by the theorems -/

mutual
/-- Proposition: every object node in the subtree passes the direct
ownership-field test. -/
def allNodesImoOk (imos : List Json) : Json → Prop
  | .obj fields => checkDirectImoField imos fields = none ∧ allFieldsImoOk imos fields
  | .arr xs => allListImoOk imos xs
  | _ => True

/-- Field-wise version of `allNodesImoOk`. -/
def allFieldsImoOk (imos : List Json) : List (String × Json) → Prop
  | [] => True
  | (_, v) :: rest => allNodesImoOk imos v ∧ allFieldsImoOk imos rest

/-- Element-wise version of `allNodesImoOk`. -/
def allListImoOk (imos : List Json) : List Json → Prop
  | [] => True
  | x :: xs => allNodesImoOk imos x ∧ allListImoOk imos xs
end

/-- Value component of `filterResponseContent`, decoupled from the
statistics. -/
def fRCValue (imos : List Json) (j : Json) : Json :=
  (filterResponseContent imos j initialFilterStats).1

/-- Value component of `filterFieldsContent`. -/
def filterFieldsValue (imos : List Json) (fs : List (String × Json)) :
    List (String × Json) :=
  (filterFieldsContent imos fs initialFilterStats).1

/-- Value component of `filterArrayByImo`. -/
def filterArrayValue (imos : List Json) (xs : List Json) : List Json :=
  (filterArrayByImo imos xs initialFilterStats).1

mutual
/-- Well-formedness of a payload value: object keys are distinct, as
they are in every object produced by `JSON.parse` (JavaScript objects
hold each property name once). -/
def wfJson : Json → Prop
  | .obj fields => (fields.map Prod.fst).Nodup ∧ wfFields fields
  | .arr xs => wfList xs
  | _ => True

/-- Field-wise version of `wfJson`. -/
def wfFields : List (String × Json) → Prop
  | [] => True
  | (_, v) :: rest => wfJson v ∧ wfFields rest

/-- Element-wise version of `wfJson`. -/
def wfList : List Json → Prop
  | [] => True
  | x :: xs => wfJson x ∧ wfList xs
end

/-- Value component of the per-item loop. -/
def filterRespValue (imos : List Json) (resp : List RespItem) : List RespItem :=
  (filterRespItems imos resp initialFilterStats).1

/-- Well-formedness of one response item: a parsed text item carries a
well-formed structure (object keys unique, as `JSON.parse` guarantees). -/
def wfRespItem : RespItem → Prop
  | .textJson j => wfJson j
  | _ => True

mutual
/-- Whether any object node of the payload carries a recognized
ownership field (an alias of `IMO_FIELD_NAMES` with a non-null value). -/
def hasImoAnywhere : Json → Bool
  | .obj fields => (findImoField (.obj fields)).isSome || hasImoInFields fields
  | .arr xs => hasImoInList xs
  | _ => false

/-- Field-wise version of `hasImoAnywhere`. -/
def hasImoInFields : List (String × Json) → Bool
  | [] => false
  | (_, v) :: rest => hasImoAnywhere v || hasImoInFields rest

/-- Element-wise version of `hasImoAnywhere`. -/
def hasImoInList : List Json → Bool
  | [] => false
  | x :: xs => hasImoAnywhere x || hasImoInList xs
end

mutual
/-- Whether the object spine of the payload (the part the object-copy
loop of `filterResponseContent` rebuilds; array elements are passed
through whole) is free of null-valued fields. -/
def nullFreeSpine : Json → Bool
  | .obj fields => nullFreeSpineFields fields
  | _ => true

/-- Field-wise version of `nullFreeSpine`. -/
def nullFreeSpineFields : List (String × Json) → Bool
  | [] => true
  | (_, v) :: rest => !(jsonIsNull v) && nullFreeSpine v && nullFreeSpineFields rest
end

/-! ## Equation lemmas for the traversal -/

/-- Scalar nodes are never flagged. -/
theorem check_scalar (imos : List Json) (j : Json)
    (h : ∀ xs, j ≠ .arr xs) (h2 : ∀ fs, j ≠ .obj fs) :
    checkForUnauthorizedImo imos j = none := by
  cases j with
  | arr xs => exact absurd rfl (h xs)
  | obj fs => exact absurd rfl (h2 fs)
  | null => rfl
  | bool b => rfl
  | num n => rfl
  | str s => rfl

/-- Unfolding of the object case of the check. -/
theorem check_obj (imos : List Json) (fs : List (String × Json)) :
    checkForUnauthorizedImo imos (.obj fs) =
      (match checkDirectImoField imos fs with
       | some loc => some loc
       | none => checkEntriesForImo imos fs) := rfl

/-- Unfolding of the array case of the check. -/
theorem check_arr (imos : List Json) (xs : List Json) :
    checkForUnauthorizedImo imos (.arr xs) = checkIndexedEntries imos 0 xs := rfl

/-- The object entry loop runs `checkEntryValue` on each entry. -/
theorem checkEntries_cons (imos : List Json) (k : String) (v : Json)
    (rest : List (String × Json)) :
    checkEntriesForImo imos ((k, v) :: rest) =
      (match checkEntryValue imos k v with
       | some loc => some loc
       | none => checkEntriesForImo imos rest) := by
  cases v with
  | arr ys =>
    simp only [checkEntriesForImo, checkEntryValue]
  | obj fs =>
    simp only [checkEntriesForImo, checkEntryValue, check_obj]
    cases checkDirectImoField imos fs with
    | some loc => rfl
    | none => cases checkEntriesForImo imos fs <;> rfl
  | null => rfl
  | bool b => rfl
  | num n => rfl
  | str s => rfl

/-- The array entry loop runs `checkEntryValue` on each entry (with the
index string as key). -/
theorem checkIndexed_cons (imos : List Json) (i : Nat) (v : Json) (rest : List Json) :
    checkIndexedEntries imos i (v :: rest) =
      (match checkEntryValue imos (toString i) v with
       | some loc => some loc
       | none => checkIndexedEntries imos (i + 1) rest) := by
  cases v with
  | arr ys =>
    simp only [checkIndexedEntries, checkEntryValue]
  | obj fs =>
    simp only [checkIndexedEntries, checkEntryValue, check_obj]
    cases checkDirectImoField imos fs with
    | some loc => rfl
    | none => cases checkEntriesForImo imos fs <;> rfl
  | null => rfl
  | bool b => rfl
  | num n => rfl
  | str s => rfl

/-! ## Characterization of a clean (never flagged) subtree -/

mutual
/-- The check is clean exactly on subtrees all of whose object nodes pass
the direct test. -/
theorem check_none_iff (imos : List Json) (j : Json) :
    checkForUnauthorizedImo imos j = none ↔ allNodesImoOk imos j := by
  cases j with
  | obj fs =>
    rw [check_obj]
    cases h : checkDirectImoField imos fs with
    | some loc => simp [allNodesImoOk, h]
    | none => simpa [allNodesImoOk, h] using checkEntries_none_iff imos fs
  | arr xs =>
    rw [check_arr]
    simpa [allNodesImoOk] using checkIndexed_none_iff imos 0 xs
  | null => simp [checkForUnauthorizedImo, allNodesImoOk]
  | bool b => simp [checkForUnauthorizedImo, allNodesImoOk]
  | num n => simp [checkForUnauthorizedImo, allNodesImoOk]
  | str s => simp [checkForUnauthorizedImo, allNodesImoOk]

/-- Loop version of `check_none_iff` for object entries. -/
theorem checkEntries_none_iff (imos : List Json) (fs : List (String × Json)) :
    checkEntriesForImo imos fs = none ↔ allFieldsImoOk imos fs := by
  cases fs with
  | nil => simp [checkEntriesForImo, allFieldsImoOk]
  | cons p rest =>
    obtain ⟨k, v⟩ := p
    rw [checkEntries_cons]
    have hv := checkEntryValue_none_iff imos k v
    cases h : checkEntryValue imos k v with
    | some loc =>
      simp only [h, Option.some_ne_none] at hv ⊢
      constructor
      · intro hc; exact absurd hc (by simp)
      · intro hc
        exact absurd (hv.mpr hc.1) (by simp)
    | none =>
      have := checkEntries_none_iff imos rest
      simp only [allFieldsImoOk]
      constructor
      · intro hc; exact ⟨hv.mp h, this.mp hc⟩
      · intro hc; exact this.mpr hc.2

/-- Loop version of `check_none_iff` for array entries. -/
theorem checkIndexed_none_iff (imos : List Json) (i : Nat) (xs : List Json) :
    checkIndexedEntries imos i xs = none ↔ allListImoOk imos xs := by
  cases xs with
  | nil => simp [checkIndexedEntries, allListImoOk]
  | cons v rest =>
    rw [checkIndexed_cons]
    have hv := checkEntryValue_none_iff imos (toString i) v
    cases h : checkEntryValue imos (toString i) v with
    | some loc =>
      simp only [h, Option.some_ne_none] at hv ⊢
      constructor
      · intro hc; exact absurd hc (by simp)
      · intro hc
        exact absurd (hv.mpr hc.1) (by simp)
    | none =>
      have := checkIndexed_none_iff imos (i + 1) rest
      simp only [allListImoOk]
      constructor
      · intro hc; exact ⟨hv.mp h, this.mp hc⟩
      · intro hc; exact this.mpr hc.2

/-- The per-entry outcome is clean exactly when the value subtree is. -/
theorem checkEntryValue_none_iff (imos : List Json) (k : String) (v : Json) :
    checkEntryValue imos k v = none ↔ allNodesImoOk imos v := by
  cases v with
  | arr ys =>
    simpa [checkEntryValue, allNodesImoOk] using checkElems_none_iff imos k 0 ys
  | obj fs =>
    have := check_none_iff imos (.obj fs)
    simp only [checkEntryValue, Option.map_eq_none']
    exact this
  | null => simp [checkEntryValue, allNodesImoOk]
  | bool b => simp [checkEntryValue, allNodesImoOk]
  | num n => simp [checkEntryValue, allNodesImoOk]
  | str s => simp [checkEntryValue, allNodesImoOk]

/-- The element loop is clean exactly when every element subtree is. -/
theorem checkElems_none_iff (imos : List Json) (k : String) (i : Nat) (ys : List Json) :
    checkElemsForImo imos k i ys = none ↔ allListImoOk imos ys := by
  cases ys with
  | nil => simp [checkElemsForImo, allListImoOk]
  | cons y rest =>
    simp only [checkElemsForImo]
    have hy := check_none_iff imos y
    cases h : checkForUnauthorizedImo imos y with
    | some loc =>
      simp only [h, Option.some_ne_none] at hy ⊢
      simp only [allListImoOk]
      constructor
      · intro hc; exact absurd hc (by simp)
      · intro hc
        exact absurd (hy.mpr hc.1) (by simp)
    | none =>
      have := checkElems_none_iff imos k (i + 1) rest
      simp only [allListImoOk]
      constructor
      · intro hc; exact ⟨hy.mp h, this.mp hc⟩
      · intro hc; exact this.mpr hc.2
end

/-- Membership version of `allListImoOk`. -/
theorem allListImoOk_iff_forall (imos : List Json) (xs : List Json) :
    allListImoOk imos xs ↔ ∀ x ∈ xs, allNodesImoOk imos x := by
  induction xs with
  | nil => simp [allListImoOk]
  | cons x rest ih => simp [allListImoOk, ih]

/-- Membership version of `allFieldsImoOk`. -/
theorem allFieldsImoOk_iff_forall (imos : List Json) (fs : List (String × Json)) :
    allFieldsImoOk imos fs ↔ ∀ p ∈ fs, allNodesImoOk imos p.2 := by
  induction fs with
  | nil => simp [allFieldsImoOk]
  | cons p rest ih =>
    obtain ⟨k, v⟩ := p
    simp [allFieldsImoOk, ih]

/-- A clean array has clean elements, and conversely. -/
theorem check_arr_none_iff (imos : List Json) (xs : List Json) :
    checkForUnauthorizedImo imos (.arr xs) = none ↔
      ∀ x ∈ xs, checkForUnauthorizedImo imos x = none := by
  rw [check_none_iff]
  show allNodesImoOk imos (.arr xs) ↔ _
  rw [show allNodesImoOk imos (.arr xs) = allListImoOk imos xs from rfl,
    allListImoOk_iff_forall]
  constructor
  · intro h x hx; exact (check_none_iff imos x).mpr (h x hx)
  · intro h x hx; exact (check_none_iff imos x).mp (h x hx)

/-! ## Statistics independence and value-level filtering -/

/-- The kept items of `filterArrayByImo` do not depend on the incoming
statistics. -/
theorem filterArrayByImo_fst_indep (imos : List Json) (xs : List Json)
    (s t : FilterStats) :
    (filterArrayByImo imos xs s).1 = (filterArrayByImo imos xs t).1 := by
  induction xs generalizing s t with
  | nil => rfl
  | cons x rest ih =>
    simp only [filterArrayByImo]
    cases h : checkForUnauthorizedImo imos x with
    | some loc => simpa [h] using ih _ _
    | none => simpa [h] using ih _ _

mutual
/-- The filtered value of `filterResponseContent` does not depend on the
incoming statistics. -/
theorem filterResponseContent_fst_indep (imos : List Json) (j : Json)
    (s t : FilterStats) :
    (filterResponseContent imos j s).1 = (filterResponseContent imos j t).1 := by
  cases j with
  | arr xs =>
    simpa [filterResponseContent] using filterArrayByImo_fst_indep imos xs s t
  | obj fs =>
    simp only [filterResponseContent]
    cases h : checkForUnauthorizedImo imos (.obj fs) with
    | some loc => simp [h]
    | none => simpa [h] using filterFieldsContent_fst_indep imos fs s t
  | null => rfl
  | bool b => rfl
  | num n => rfl
  | str s2 => rfl

/-- Field-loop version of `filterResponseContent_fst_indep`. -/
theorem filterFieldsContent_fst_indep (imos : List Json) (fs : List (String × Json))
    (s t : FilterStats) :
    (filterFieldsContent imos fs s).1 = (filterFieldsContent imos fs t).1 := by
  cases fs with
  | nil => rfl
  | cons p rest =>
    obtain ⟨k, v⟩ := p
    simp only [filterFieldsContent]
    have hv := filterResponseContent_fst_indep imos v s t
    have hr := filterFieldsContent_fst_indep imos rest
      (filterResponseContent imos v s).2 (filterResponseContent imos v t).2
    rw [← hv]
    cases (filterResponseContent imos v s).1 with
    | null => simpa using hr
    | bool b => simpa using hr
    | num n => simpa using hr
    | str s2 => simpa using hr
    | arr xs => simpa using hr
    | obj gs => simpa using hr
end

/-- Any-stats reduction to the value component. -/
theorem fRC_fst_eq_value (imos : List Json) (j : Json) (s : FilterStats) :
    (filterResponseContent imos j s).1 = fRCValue imos j :=
  filterResponseContent_fst_indep imos j s initialFilterStats

/-- Any-stats reduction to the value component. -/
theorem filterFields_fst_eq_value (imos : List Json) (fs : List (String × Json))
    (s : FilterStats) :
    (filterFieldsContent imos fs s).1 = filterFieldsValue imos fs :=
  filterFieldsContent_fst_indep imos fs s initialFilterStats

/-- Any-stats reduction to the value component. -/
theorem filterArray_fst_eq_value (imos : List Json) (xs : List Json) (s : FilterStats) :
    (filterArrayByImo imos xs s).1 = filterArrayValue imos xs :=
  filterArrayByImo_fst_indep imos xs s initialFilterStats

/-- Value recursion of the array filter. -/
theorem filterArrayValue_cons (imos : List Json) (x : Json) (xs : List Json) :
    filterArrayValue imos (x :: xs) =
      (match checkForUnauthorizedImo imos x with
       | some _ => filterArrayValue imos xs
       | none => x :: filterArrayValue imos xs) := by
  show (filterArrayByImo imos (x :: xs) initialFilterStats).1 = _
  simp only [filterArrayByImo]
  cases h : checkForUnauthorizedImo imos x with
  | some loc => simpa [h] using filterArray_fst_eq_value imos xs _
  | none => simpa [h] using filterArray_fst_eq_value imos xs _

/-- Value recursion of the content filter on scalars. -/
theorem fRCValue_scalar (imos : List Json) (j : Json)
    (h : ∀ xs, j ≠ .arr xs) (h2 : ∀ fs, j ≠ .obj fs) :
    fRCValue imos j = j := by
  cases j with
  | arr xs => exact absurd rfl (h xs)
  | obj fs => exact absurd rfl (h2 fs)
  | null => rfl
  | bool b => rfl
  | num n => rfl
  | str s => rfl

/-- Value recursion of the content filter on arrays. -/
theorem fRCValue_arr (imos : List Json) (xs : List Json) :
    fRCValue imos (.arr xs) = .arr (filterArrayValue imos xs) := rfl

/-- Value recursion of the content filter on objects. -/
theorem fRCValue_obj (imos : List Json) (fs : List (String × Json)) :
    fRCValue imos (.obj fs) =
      (match checkForUnauthorizedImo imos (.obj fs) with
       | some _ => .null
       | none => .obj (filterFieldsValue imos fs)) := by
  show (filterResponseContent imos (.obj fs) initialFilterStats).1 = _
  simp only [filterResponseContent]
  cases h : checkForUnauthorizedImo imos (.obj fs) with
  | some loc => simp [h]
  | none => simp [h, filterFieldsValue]

/-- Value recursion of the field loop. -/
theorem filterFieldsValue_cons (imos : List Json) (k : String) (v : Json)
    (rest : List (String × Json)) :
    filterFieldsValue imos ((k, v) :: rest) =
      (if jsonIsNull (fRCValue imos v) then filterFieldsValue imos rest
       else (k, fRCValue imos v) :: filterFieldsValue imos rest) := by
  show (filterFieldsContent imos ((k, v) :: rest) initialFilterStats).1 = _
  simp only [filterFieldsContent]
  have hr := filterFields_fst_eq_value imos rest
    (filterResponseContent imos v initialFilterStats).2
  show _ = (if jsonIsNull ((filterResponseContent imos v initialFilterStats).1)
    then filterFieldsValue imos rest
    else (k, (filterResponseContent imos v initialFilterStats).1) :: filterFieldsValue imos rest)
  cases (filterResponseContent imos v initialFilterStats).1 with
  | null => simp [jsonIsNull, hr]
  | bool b => simp [jsonIsNull, hr]
  | num n => simp [jsonIsNull, hr]
  | str s2 => simp [jsonIsNull, hr]
  | arr xs => simp [jsonIsNull, hr]
  | obj gs => simp [jsonIsNull, hr]

/-! ## Kept-item descriptions -/

/-- Value equation at nil. -/
theorem filterArrayValue_nil (imos : List Json) : filterArrayValue imos [] = [] := rfl

/-- Value equation at nil. -/
theorem filterFieldsValue_nil (imos : List Json) : filterFieldsValue imos [] = [] := rfl

/-- An array of clean items is kept whole. -/
theorem filterArrayValue_keepAll (imos : List Json) (xs : List Json)
    (h : ∀ x ∈ xs, checkForUnauthorizedImo imos x = none) :
    filterArrayValue imos xs = xs := by
  induction xs with
  | nil => rfl
  | cons x rest ih =>
    rw [filterArrayValue_cons, h x (by simp)]
    exact congrArg (x :: ·) (ih fun y hy => h y (by simp [hy]))

/-- Every kept array item is an original item and is clean. -/
theorem filterArrayValue_mem (imos : List Json) (xs : List Json) (x : Json)
    (h : x ∈ filterArrayValue imos xs) :
    x ∈ xs ∧ checkForUnauthorizedImo imos x = none := by
  induction xs with
  | nil => simp [filterArrayValue_nil] at h
  | cons y rest ih =>
    rw [filterArrayValue_cons] at h
    cases hy : checkForUnauthorizedImo imos y with
    | some loc =>
      rw [hy] at h
      have := ih h
      exact ⟨by simp [this.1], this.2⟩
    | none =>
      rw [hy] at h
      rcases List.mem_cons.mp h with h1 | h2
      · exact ⟨by simp [h1], h1 ▸ hy⟩
      · have := ih h2
        exact ⟨by simp [this.1], this.2⟩

/-- Every kept field is an original key with the filtered value of its
original value, and is not null. -/
theorem mem_filterFieldsValue (imos : List Json) (fs : List (String × Json))
    (p : String × Json) (h : p ∈ filterFieldsValue imos fs) :
    ∃ v, (p.1, v) ∈ fs ∧ p.2 = fRCValue imos v ∧ jsonIsNull p.2 = false := by
  induction fs with
  | nil => simp [filterFieldsValue_nil] at h
  | cons q rest ih =>
    obtain ⟨k, v⟩ := q
    rw [filterFieldsValue_cons] at h
    by_cases hn : jsonIsNull (fRCValue imos v) = true
    · rw [if_pos hn] at h
      obtain ⟨w, hw⟩ := ih h
      exact ⟨w, by simp [hw.1], hw.2.1, hw.2.2⟩
    · rw [if_neg hn] at h
      rcases List.mem_cons.mp h with h1 | h2
      · refine ⟨v, ?_, ?_, ?_⟩
        · rw [h1]; simp
        · rw [h1]
        · rw [h1]; simpa using hn
      · obtain ⟨w, hw⟩ := ih h2
        exact ⟨w, by simp [hw.1], hw.2.1, hw.2.2⟩

/-- A field list fixed by the content filter value-wise is kept whole. -/
theorem filterFieldsValue_id (imos : List Json) (gs : List (String × Json))
    (h : ∀ p ∈ gs, fRCValue imos p.2 = p.2 ∧ jsonIsNull p.2 = false) :
    filterFieldsValue imos gs = gs := by
  induction gs with
  | nil => rfl
  | cons p rest ih =>
    obtain ⟨k, v⟩ := p
    have hp := h (k, v) (by simp)
    rw [filterFieldsValue_cons, hp.1, if_neg (by simp [hp.2])]
    exact congrArg ((k, v) :: ·) (ih fun q hq => h q (by simp [hq]))

/-! ## Well-formed payloads -/

/-- Membership version of `wfFields`. -/
theorem wfFields_mem (fs : List (String × Json)) (h : wfFields fs)
    (p : String × Json) (hp : p ∈ fs) : wfJson p.2 := by
  induction fs with
  | nil => simp at hp
  | cons q rest ih =>
    obtain ⟨k, v⟩ := q
    rcases List.mem_cons.mp hp with h1 | h2
    · rw [h1]; exact h.1
    · exact ih h.2 h2

/-- Membership version of `wfList`. -/
theorem wfList_mem (xs : List Json) (h : wfList xs) (x : Json) (hx : x ∈ xs) :
    wfJson x := by
  induction xs with
  | nil => simp at hx
  | cons y rest ih =>
    rcases List.mem_cons.mp hx with h1 | h2
    · rw [h1]; exact h.1
    · exact ih h.2 h2

/-! ## Association-list lookups under filtering -/

/-- A successful lookup is a membership. -/
theorem lookup_mem (fs : List (String × Json)) (name : String) (v : Json)
    (h : fs.lookup name = some v) : (name, v) ∈ fs := by
  induction fs with
  | nil => simp [List.lookup] at h
  | cons q rest ih =>
    obtain ⟨k, w⟩ := q
    by_cases hk : name = k
    · subst hk
      simp [List.lookup] at h
      simp [h]
    · have hbeq : (name == k) = false := beq_eq_false_iff_ne.mpr hk
      simp only [List.lookup, hbeq] at h
      exact List.mem_cons_of_mem _ (ih h)

/-- Lookup misses keys not present. -/
theorem lookup_eq_none_of_not_mem (fs : List (String × Json)) (name : String)
    (h : name ∉ fs.map Prod.fst) : fs.lookup name = none := by
  induction fs with
  | nil => rfl
  | cons q rest ih =>
    obtain ⟨k, w⟩ := q
    simp only [List.map, List.mem_cons] at h
    push_neg at h
    have hbeq : (name == k) = false := beq_eq_false_iff_ne.mpr h.1
    simp only [List.lookup, hbeq]
    exact ih h.2

/-- Keys surviving the field filter were keys before. -/
theorem keys_filterFieldsValue_sub (imos : List Json) (fs : List (String × Json))
    (name : String) (h : name ∈ (filterFieldsValue imos fs).map Prod.fst) :
    name ∈ fs.map Prod.fst := by
  rcases List.mem_map.mp h with ⟨p, hp, hname⟩
  obtain ⟨v, hv, -, -⟩ := mem_filterFieldsValue imos fs p hp
  exact List.mem_map.mpr ⟨(p.1, v), hv, hname⟩

/-- How the field filter acts on lookups, on objects with distinct
keys. -/
theorem lookup_filterFieldsValue (imos : List Json) (fs : List (String × Json))
    (hnodup : (fs.map Prod.fst).Nodup) (name : String) :
    (filterFieldsValue imos fs).lookup name =
      (match fs.lookup name with
       | some v =>
         if jsonIsNull (fRCValue imos v) then none else some (fRCValue imos v)
       | none => none) := by
  induction fs with
  | nil => rfl
  | cons q rest ih =>
    obtain ⟨k, v⟩ := q
    have hk := List.nodup_cons.mp hnodup
    by_cases hkn : k = name
    · subst hkn
      rw [filterFieldsValue_cons]
      by_cases hn : jsonIsNull (fRCValue imos v) = true
      · rw [if_pos hn]
        have hnone : (filterFieldsValue imos rest).lookup k = none := by
          apply lookup_eq_none_of_not_mem
          intro hmem
          exact hk.1 (keys_filterFieldsValue_sub imos rest k hmem)
        rw [hnone]
        simp [List.lookup, hn]
      · rw [if_neg hn]
        simp [List.lookup, hn]
    · have hbeq : (name == k) = false := beq_eq_false_iff_ne.mpr (fun hh => hkn hh.symm)
      rw [filterFieldsValue_cons]
      have hrest := ih hk.2
      by_cases hn : jsonIsNull (fRCValue imos v) = true
      · rw [if_pos hn, hrest]
        simp only [List.lookup, hbeq]
      · rw [if_neg hn]
        simp only [List.lookup, hbeq]
        exact hrest

/-! ## Preservation of the direct ownership-field test -/

/-- Congruence for `findSome?` under a value transformation. -/
theorem findSomeRel {α β γ : Type} (l : List α) (g1 : α → Option β) (g2 : α → Option γ)
    (h : β → γ) (hg : ∀ a ∈ l, g2 a = (g1 a).map h) :
    l.findSome? g2 = (l.findSome? g1).map h := by
  induction l with
  | nil => simp
  | cons a rest ih =>
    rw [List.findSome?_cons, List.findSome?_cons, hg a (by simp)]
    cases g1 a with
    | some b => simp
    | none =>
      simp only [Option.map_none']
      exact ih fun x hx => hg x (by simp [hx])

/-- Inversion of a successful `findSome?`. -/
theorem exists_of_findSome (l : List String) (g : String → Option (String × Json))
    (b : String × Json) (h : l.findSome? g = some b) : ∃ a ∈ l, g a = some b := by
  induction l with
  | nil => simp [List.findSome?] at h
  | cons a rest ih =>
    rw [List.findSome?_cons] at h
    cases hg : g a with
    | some c =>
      rw [hg] at h
      exact ⟨a, by simp, by rw [hg]; exact h⟩
    | none =>
      rw [hg] at h
      obtain ⟨x, hx, hgx⟩ := ih h
      exact ⟨x, by simp [hx], hgx⟩

/-- The found ownership field is an actual binding of the object. -/
theorem findImoField_lookup (fs : List (String × Json)) (n : String) (v : Json)
    (h : findImoField (.obj fs) = some (n, v)) : fs.lookup n = some v := by
  obtain ⟨name, -, hg⟩ := exists_of_findSome _ _ _ h
  cases hl : fs.lookup name with
  | none => rw [hl] at hg; simp at hg
  | some w =>
    rw [hl] at hg
    cases w with
    | null => simp at hg
    | bool b => simp_all
    | num m => simp_all
    | str s => simp_all
    | arr xs => simp_all
    | obj gs => simp_all

/-- A clean non-null value filters to a non-null value. -/
theorem fRCValue_not_null (imos : List Json) (v : Json) (hv : ¬ jsonIsNull v = true)
    (hc : checkForUnauthorizedImo imos v = none) :
    jsonIsNull (fRCValue imos v) = false := by
  cases v with
  | null => simp [jsonIsNull] at hv
  | bool b => rfl
  | num n => rfl
  | str s => rfl
  | arr xs => rfl
  | obj fs => rw [fRCValue_obj, hc]; rfl

/-- A plain object never passes the seven-digit test (its string form is
the literal object tag). -/
theorem isValid_obj_eq_false (imos : List Json) (fs : List (String × Json)) :
    isValidImoForCompany (.obj fs) imos = false := by
  have h : jsString (.obj fs) = "[object Object]" := rfl
  unfold isValidImoForCompany
  rw [h]
  have : isSevenDigitImo "[object Object]" = false := by decide
  simp [this]

/-- A valid alias value with a clean subtree is fixed by the content
filter: scalars are untouched, clean arrays are kept whole, and a valid
value cannot be an object. -/
theorem fRCValue_eq_self_of_alias (imos : List Json) (v : Json)
    (hvalid : isValidImoForCompany v imos = true)
    (hok : allNodesImoOk imos v) : fRCValue imos v = v := by
  cases v with
  | null => rfl
  | bool b => rfl
  | num n => rfl
  | str s => rfl
  | arr ys =>
    rw [fRCValue_arr]
    have hclean : ∀ y ∈ ys, checkForUnauthorizedImo imos y = none := by
      intro y hy
      have : allListImoOk imos ys := hok
      exact (check_none_iff imos y).mpr ((allListImoOk_iff_forall imos ys).mp this y hy)
    rw [filterArrayValue_keepAll imos ys hclean]
  | obj fs =>
    rw [isValid_obj_eq_false imos fs] at hvalid
    exact absurd hvalid (by simp)

/-- Inversion of a clean object check into its two parts. -/
theorem check_obj_none_parts (imos : List Json) (fs : List (String × Json))
    (h : checkForUnauthorizedImo imos (.obj fs) = none) :
    checkDirectImoField imos fs = none ∧ checkEntriesForImo imos fs = none := by
  rw [check_obj] at h
  cases hd : checkDirectImoField imos fs with
  | some loc => rw [hd] at h; simp at h
  | none => rw [hd] at h; exact ⟨rfl, h⟩

/-- The direct ownership-field test survives field filtering on a
well-keyed clean object. -/
theorem findImoField_filterFieldsValue (imos : List Json) (fs : List (String × Json))
    (hnodup : (fs.map Prod.fst).Nodup)
    (hok : allFieldsImoOk imos fs) :
    findImoField (.obj (filterFieldsValue imos fs)) =
      (findImoField (.obj fs)).map (fun p => (p.1, fRCValue imos p.2)) := by
  simp only [findImoField]
  apply findSomeRel
  intro name _
  rw [lookup_filterFieldsValue imos fs hnodup name]
  cases hl : fs.lookup name with
  | none => simp
  | some v =>
    cases v with
    | null => simp [fRCValue, filterResponseContent, initialFilterStats, jsonIsNull]
    | bool b => simp [fRCValue, filterResponseContent, initialFilterStats, jsonIsNull]
    | num n => simp [fRCValue, filterResponseContent, initialFilterStats, jsonIsNull]
    | str s => simp [fRCValue, filterResponseContent, initialFilterStats, jsonIsNull]
    | arr ys => simp [fRCValue, filterResponseContent, jsonIsNull, filterArrayValue]
    | obj gs =>
      have hmem : (name, Json.obj gs) ∈ fs := lookup_mem fs name _ hl
      have hclean : checkForUnauthorizedImo imos (.obj gs) = none :=
        (check_none_iff imos (.obj gs)).mpr
          ((allFieldsImoOk_iff_forall imos fs).mp hok (name, Json.obj gs) hmem)
      simp only [fRCValue_obj, hclean]
      simp [jsonIsNull, fRCValue_obj, hclean]

/-- The direct test stays clean after field filtering. -/
theorem checkDirect_filterFieldsValue (imos : List Json) (fs : List (String × Json))
    (hnodup : (fs.map Prod.fst).Nodup)
    (hdirect : checkDirectImoField imos fs = none)
    (hok : allFieldsImoOk imos fs) :
    checkDirectImoField imos (filterFieldsValue imos fs) = none := by
  unfold checkDirectImoField at hdirect ⊢
  rw [findImoField_filterFieldsValue imos fs hnodup hok]
  cases hf : findImoField (.obj fs) with
  | none => simp
  | some p =>
    obtain ⟨n, v⟩ := p
    rw [hf] at hdirect
    have hvalid : isValidImoForCompany v imos = true := by
      by_contra hcon
      rw [Bool.not_eq_true] at hcon
      simp [hcon] at hdirect
    have hmem : (n, v) ∈ fs := lookup_mem fs n v (findImoField_lookup fs n v hf)
    have hokv : allNodesImoOk imos v := (allFieldsImoOk_iff_forall imos fs).mp hok (n, v) hmem
    simp only [Option.map_some']
    simp only [fRCValue_eq_self_of_alias imos v hvalid hokv]
    simp [hvalid]

/-- Filtering preserves cleanness: the filtered value of a clean
well-formed payload is itself clean. -/
theorem check_none_preserved (imos : List Json) (j : Json) (hwf : wfJson j)
    (hc : checkForUnauthorizedImo imos j = none) :
    checkForUnauthorizedImo imos (fRCValue imos j) = none := by
  cases hj : j with
  | null => rw [hj] at hc; exact hc
  | bool b => rw [hj] at hc; exact hc
  | num n => rw [hj] at hc; exact hc
  | str s => rw [hj] at hc; exact hc
  | arr xs =>
    rw [fRCValue_arr, check_arr_none_iff]
    intro x hx
    exact (filterArrayValue_mem imos xs x hx).2
  | obj fs =>
    rw [hj] at hc hwf
    have hparts := check_obj_none_parts imos fs hc
    have hok : allFieldsImoOk imos fs := (checkEntries_none_iff imos fs).mp hparts.2
    have hwf2 : (fs.map Prod.fst).Nodup ∧ wfFields fs := hwf
    simp only [fRCValue_obj, hc]
    rw [check_obj, checkDirect_filterFieldsValue imos fs hwf2.1 hparts.1 hok]
    rw [checkEntries_none_iff, allFieldsImoOk_iff_forall]
    intro p hp
    obtain ⟨v, hv, hpv, hnn⟩ := mem_filterFieldsValue imos fs p hp
    have hokv : allNodesImoOk imos v := (allFieldsImoOk_iff_forall imos fs).mp hok (p.1, v) hv
    have hcv : checkForUnauthorizedImo imos v = none := (check_none_iff imos v).mpr hokv
    have hwfv : wfJson v := wfFields_mem fs hwf2.2 (p.1, v) hv
    have hrec := check_none_preserved imos v hwfv hcv
    rw [hpv]
    exact (check_none_iff imos (fRCValue imos v)).mp hrec
termination_by sizeOf j
decreasing_by
  subst hj
  have h1 := List.sizeOf_lt_of_mem hv
  simp only [Prod.mk.sizeOf_spec] at h1
  simp only [Json.obj.sizeOf_spec]
  omega

/-- Filtering is idempotent value-wise on well-formed payloads. -/
theorem fRCValue_fixpoint (imos : List Json) (j : Json) (hwf : wfJson j) :
    fRCValue imos (fRCValue imos j) = fRCValue imos j := by
  cases hj : j with
  | null => rfl
  | bool b => rfl
  | num n => rfl
  | str s => rfl
  | arr xs =>
    rw [fRCValue_arr, fRCValue_arr]
    have hclean : ∀ x ∈ filterArrayValue imos xs, checkForUnauthorizedImo imos x = none :=
      fun x hx => (filterArrayValue_mem imos xs x hx).2
    rw [filterArrayValue_keepAll imos _ hclean]
  | obj fs =>
    rw [hj] at hwf
    cases hc : checkForUnauthorizedImo imos (.obj fs) with
    | some loc =>
      simp only [fRCValue_obj, hc]
      rfl
    | none =>
      have hwf2 : (fs.map Prod.fst).Nodup ∧ wfFields fs := hwf
      have hpres := check_none_preserved imos (.obj fs) hwf hc
      simp only [fRCValue_obj, hc] at hpres ⊢
      simp only [fRCValue_obj, hpres]
      congr 1
      apply filterFieldsValue_id
      intro p hp
      obtain ⟨v, hv, hpv, hnn⟩ := mem_filterFieldsValue imos fs p hp
      have hwfv : wfJson v := wfFields_mem fs hwf2.2 (p.1, v) hv
      have hfix := fRCValue_fixpoint imos v hwfv
      constructor
      · rw [hpv]; exact hfix
      · exact hnn
termination_by sizeOf j
decreasing_by
  subst hj
  have h1 := List.sizeOf_lt_of_mem hv
  simp only [Prod.mk.sizeOf_spec] at h1
  simp only [Json.obj.sizeOf_spec]
  omega

/-! ## The per-item loop, value-wise -/

/-- The kept response items do not depend on the incoming statistics. -/
theorem filterRespItems_fst_indep (imos : List Json) (resp : List RespItem)
    (s t : FilterStats) :
    (filterRespItems imos resp s).1 = (filterRespItems imos resp t).1 := by
  induction resp generalizing s t with
  | nil => rfl
  | cons item rest ih =>
    cases item with
    | textJson j =>
      simp only [filterRespItems]
      rw [fRC_fst_eq_value imos j s, fRC_fst_eq_value imos j t]
      cases fRCValue imos j with
      | null => exact ih _ _
      | bool b => simpa using ih _ _
      | num n => simpa using ih _ _
      | str s2 => simpa using ih _ _
      | arr xs => simpa using ih _ _
      | obj fs => simpa using ih _ _
    | textRaw t2 =>
      simpa [filterRespItems] using ih s t
    | other j =>
      simp only [filterRespItems]
      cases checkForUnauthorizedImo imos j with
      | none => simpa using ih s t
      | some loc => exact ih _ _

/-- Value equation at nil. -/
theorem filterRespValue_nil (imos : List Json) : filterRespValue imos [] = [] := rfl

/-- Value recursion for a parsed text item. -/
theorem filterRespValue_textJson (imos : List Json) (j : Json) (rest : List RespItem) :
    filterRespValue imos (.textJson j :: rest) =
      (if jsonIsNull (fRCValue imos j) then filterRespValue imos rest
       else .textJson (fRCValue imos j) :: filterRespValue imos rest) := by
  show (filterRespItems imos (.textJson j :: rest) initialFilterStats).1 = _
  simp only [filterRespItems]
  rw [fRC_fst_eq_value imos j]
  have hr := filterRespItems_fst_indep imos rest
    (filterResponseContent imos j initialFilterStats).2 initialFilterStats
  cases fRCValue imos j with
  | null => simpa [jsonIsNull] using hr
  | bool b => simpa [jsonIsNull] using hr
  | num n => simpa [jsonIsNull] using hr
  | str s2 => simpa [jsonIsNull] using hr
  | arr xs => simpa [jsonIsNull] using hr
  | obj fs => simpa [jsonIsNull] using hr

/-- Value recursion for an unparseable text item. -/
theorem filterRespValue_textRaw (imos : List Json) (t : String) (rest : List RespItem) :
    filterRespValue imos (.textRaw t :: rest) = .textRaw t :: filterRespValue imos rest := rfl

/-- Value recursion for a non-text item. -/
theorem filterRespValue_other (imos : List Json) (j : Json) (rest : List RespItem) :
    filterRespValue imos (.other j :: rest) =
      (match checkForUnauthorizedImo imos j with
       | none => .other j :: filterRespValue imos rest
       | some _ => filterRespValue imos rest) := by
  show (filterRespItems imos (.other j :: rest) initialFilterStats).1 = _
  simp only [filterRespItems]
  cases checkForUnauthorizedImo imos j with
  | none => rfl
  | some loc =>
    exact filterRespItems_fst_indep imos rest _ initialFilterStats

/-- The per-item loop is idempotent value-wise on well-formed items. -/
theorem filterRespValue_idem (imos : List Json) (resp : List RespItem)
    (h : ∀ item ∈ resp, wfRespItem item) :
    filterRespValue imos (filterRespValue imos resp) = filterRespValue imos resp := by
  induction resp with
  | nil => rfl
  | cons item rest ih =>
    have hrest := ih fun x hx => h x (by simp [hx])
    cases item with
    | textJson j =>
      have hwf : wfJson j := h (.textJson j) (by simp)
      rw [filterRespValue_textJson]
      by_cases hn : jsonIsNull (fRCValue imos j) = true
      · rw [if_pos hn]
        exact hrest
      · rw [if_neg hn, filterRespValue_textJson,
          fRCValue_fixpoint imos j hwf, if_neg hn]
        exact congrArg _ hrest
    | textRaw t =>
      rw [filterRespValue_textRaw, filterRespValue_textRaw]
      exact congrArg _ hrest
    | other j =>
      rw [filterRespValue_other]
      cases hc : checkForUnauthorizedImo imos j with
      | none =>
        rw [filterRespValue_other, hc]
        exact congrArg _ hrest
      | some loc =>
        exact hrest

/-! ## Payloads without ownership fields -/

/-- Membership version of `hasImoInList`. -/
theorem hasImoInList_mem (xs : List Json) (h : hasImoInList xs = false)
    (x : Json) (hx : x ∈ xs) : hasImoAnywhere x = false := by
  induction xs with
  | nil => simp at hx
  | cons y rest ih =>
    simp only [hasImoInList, Bool.or_eq_false_iff] at h
    rcases List.mem_cons.mp hx with h1 | h2
    · rw [h1]; exact h.1
    · exact ih h.2 h2

/-- Membership version of `hasImoInFields`. -/
theorem hasImoInFields_mem (fs : List (String × Json)) (h : hasImoInFields fs = false)
    (p : String × Json) (hp : p ∈ fs) : hasImoAnywhere p.2 = false := by
  induction fs with
  | nil => simp at hp
  | cons q rest ih =>
    obtain ⟨k, v⟩ := q
    simp only [hasImoInFields, Bool.or_eq_false_iff] at h
    rcases List.mem_cons.mp hp with h1 | h2
    · rw [h1]; exact h.1
    · exact ih h.2 h2

mutual
/-- A payload without ownership fields is clean for every tenant. -/
theorem allNodes_of_no_imo (imos : List Json) (j : Json)
    (h : hasImoAnywhere j = false) : allNodesImoOk imos j := by
  cases j with
  | obj fields =>
    simp only [hasImoAnywhere, Bool.or_eq_false_iff] at h
    refine ⟨?_, allFields_of_no_imo imos fields h.2⟩
    unfold checkDirectImoField
    have hnone : findImoField (Json.obj fields) = none :=
      Option.not_isSome_iff_eq_none.mp (by simp [h.1])
    rw [hnone]
  | arr xs => exact allList_of_no_imo imos xs h
  | null => trivial
  | bool b => trivial
  | num n => trivial
  | str s => trivial

/-- Field-wise version of `allNodes_of_no_imo`. -/
theorem allFields_of_no_imo (imos : List Json) (fs : List (String × Json))
    (h : hasImoInFields fs = false) : allFieldsImoOk imos fs := by
  cases fs with
  | nil => trivial
  | cons q rest =>
    obtain ⟨k, v⟩ := q
    simp only [hasImoInFields, Bool.or_eq_false_iff] at h
    exact ⟨allNodes_of_no_imo imos v h.1, allFields_of_no_imo imos rest h.2⟩

/-- Element-wise version of `allNodes_of_no_imo`. -/
theorem allList_of_no_imo (imos : List Json) (xs : List Json)
    (h : hasImoInList xs = false) : allListImoOk imos xs := by
  cases xs with
  | nil => trivial
  | cons x rest =>
    simp only [hasImoInList, Bool.or_eq_false_iff] at h
    exact ⟨allNodes_of_no_imo imos x h.1, allList_of_no_imo imos rest h.2⟩
end

/-- Check never fires on a payload without ownership fields. -/
theorem check_none_of_no_imo (imos : List Json) (j : Json)
    (h : hasImoAnywhere j = false) : checkForUnauthorizedImo imos j = none :=
  (check_none_iff imos j).mpr (allNodes_of_no_imo imos j h)

mutual
/-- The content filter is the identity on payloads without ownership
fields and without null-valued object fields. -/
theorem fRCValue_id_of_no_imo (imos : List Json) (j : Json)
    (himo : hasImoAnywhere j = false) (hnf : nullFreeSpine j = true) :
    fRCValue imos j = j := by
  cases j with
  | null => rfl
  | bool b => rfl
  | num n => rfl
  | str s => rfl
  | arr xs =>
    rw [fRCValue_arr]
    rw [filterArrayValue_keepAll imos xs fun x hx =>
      check_none_of_no_imo imos x (hasImoInList_mem xs himo x hx)]
  | obj fields =>
    have hc : checkForUnauthorizedImo imos (.obj fields) = none :=
      check_none_of_no_imo imos _ himo
    simp only [fRCValue_obj, hc]
    simp only [hasImoAnywhere, Bool.or_eq_false_iff] at himo
    exact congrArg Json.obj (filterFields_id_of_no_imo imos fields himo.2 hnf)

/-- Field-wise version of `fRCValue_id_of_no_imo`. -/
theorem filterFields_id_of_no_imo (imos : List Json) (fs : List (String × Json))
    (himo : hasImoInFields fs = false) (hnf : nullFreeSpineFields fs = true) :
    filterFieldsValue imos fs = fs := by
  cases fs with
  | nil => rfl
  | cons q rest =>
    obtain ⟨k, v⟩ := q
    simp only [hasImoInFields, Bool.or_eq_false_iff] at himo
    simp only [nullFreeSpineFields, Bool.and_eq_true, Bool.not_eq_true'] at hnf
    rw [filterFieldsValue_cons,
      fRCValue_id_of_no_imo imos v himo.1 hnf.1.2,
      if_neg (by simp [hnf.1.1])]
    exact congrArg _ (filterFields_id_of_no_imo imos rest himo.2 hnf.2)
end

/-! ## Claim theorems -/

/-- C1 counterexample: a non-bypass tenant (name "acme") with an empty
authorized set sees `isValidImoForCompany` return authorized for a
syntactically valid ownership key, and the response filter return a
payload containing an ownership-keyed record unchanged — allow-all, not
deny-all. -/
theorem claim1_counterexample :
    shouldBypassImoFiltering "acme" = false ∧
    isValidImoForCompany (.num 9123456) [] = true ∧
    filterResponseByCompanyImos ⟨some "acme"⟩ []
        [RespItem.textJson (.obj [("imo", Json.num 9123456)])] =
      [RespItem.textJson (.obj [("imo", Json.num 9123456)])] :=
  ⟨by decide, rfl, rfl⟩

/-- C1 amended: for a non-bypass tenant with an empty authorized set the
cited check `isValidImoForCompany` authorizes every syntactically valid
(7-digit) ownership key, and `filterResponseByCompanyImos` skips
filtering and returns any payload unchanged; the deny-all behaviour on
an empty set holds only in the separate helper
`isVesselAuthorizedForCompanyGeneric`. -/
theorem claim1_amended_thm (cfg : McpConfig) (v : Json) (resp : List RespItem) :
    (isSevenDigitImo (jsString v) = true → isValidImoForCompany v [] = true) ∧
    filterResponseByCompanyImos cfg [] resp = resp ∧
    (optFalsyStr cfg.companyName = false →
      shouldBypassImoFiltering (cfg.companyName.getD "") = false →
      isVesselAuthorizedForCompanyGeneric cfg.companyName [] v = false) := by
  refine ⟨?_, ?_, ?_⟩
  · intro h7
    unfold isValidImoForCompany
    simp [h7]
  · unfold filterResponseByCompanyImos
    by_cases hb : shouldBypassImoFiltering (cfg.companyName.getD "") = true
    · simp [hb]
    · simp [hb]
  · intro hfalsy hbypass
    unfold isVesselAuthorizedForCompanyGeneric
    simp [hfalsy, hbypass]

/-- C1 amended witness at a concrete tenant and key. -/
theorem claim1_witness :
    isValidImoForCompany (.num 9123456) [] = true ∧
    filterResponseByCompanyImos ⟨some "acme"⟩ []
        [RespItem.textJson (.obj [("imo", Json.num 9123456)])] =
      [RespItem.textJson (.obj [("imo", Json.num 9123456)])] ∧
    isVesselAuthorizedForCompanyGeneric (some "acme") [] (.num 9123456) = false :=
  have h := claim1_amended_thm ⟨some "acme"⟩ (.num 9123456)
    [RespItem.textJson (.obj [("imo", Json.num 9123456)])]
  ⟨h.1 (by decide), h.2.1, h.2.2 (by decide) (by decide)⟩

/-- C2 counterexample: for the non-bypass tenant "acme" with an empty
authorized set, all three query-scoping rewrites return the original
unrestricted query, not a zero-match contradiction. -/
theorem claim2_counterexample :
    shouldBypassImoFiltering "acme" = false ∧
    updateTypesenseFilterWithCompanyImos ⟨some "acme"⟩ [] "status:open" = "status:open" ∧
    updateMongoFilterWithCompanyImosGeneric ⟨some "acme"⟩ []
        [("status", MongoVal.lit (.str "open"))] =
      [("status", MongoVal.lit (.str "open"))] ∧
    updateMongoAggregationWithCompanyImosGeneric ⟨some "acme"⟩ []
        [PipelineStage.stage (.obj [])] =
      [PipelineStage.stage (.obj [])] :=
  ⟨by decide, rfl, rfl, rfl⟩

/-- C2 amended: with an empty authorized set every one of the three
rewrite functions returns its input query unchanged (scoping is skipped),
for every configuration. -/
theorem claim2_amended_thm (cfg : McpConfig) (filter : String)
    (mfilter : List (String × MongoVal)) (pipeline : List PipelineStage) :
    updateTypesenseFilterWithCompanyImos cfg [] filter = filter ∧
    updateMongoFilterWithCompanyImosGeneric cfg [] mfilter = mfilter ∧
    updateMongoAggregationWithCompanyImosGeneric cfg [] pipeline = pipeline := by
  refine ⟨?_, ?_, ?_⟩
  · unfold updateTypesenseFilterWithCompanyImos
    by_cases hb : (optFalsyStr cfg.companyName ||
        shouldBypassImoFiltering (cfg.companyName.getD "")) = true
    · simp [hb]
    · simp [hb]
  · unfold updateMongoFilterWithCompanyImosGeneric
    by_cases hb : (optFalsyStr cfg.companyName ||
        shouldBypassImoFiltering (cfg.companyName.getD "")) = true
    · simp [hb]
    · simp [hb]
  · unfold updateMongoAggregationWithCompanyImosGeneric
    by_cases hb : (optFalsyStr cfg.companyName ||
        shouldBypassImoFiltering (cfg.companyName.getD "")) = true
    · simp [hb]
    · simp [hb]

/-- C3 counterexample: when the filter body fails (config resolution
error) for a non-bypass tenant, the original payload — including a
record the tenant is not authorized for, as the no-error run shows by
removing it — is returned unfiltered. -/
theorem claim3_counterexample :
    filterResponseByCompanyImosCaught (.error ()) [.str "1234567"]
        [RespItem.textJson (.obj [("imo", Json.num 9999999)])] =
      [RespItem.textJson (.obj [("imo", Json.num 9999999)])] ∧
    filterResponseByCompanyImosCaught (.ok ⟨some "acme"⟩) [.str "1234567"]
        [RespItem.textJson (.obj [("imo", Json.num 9999999)])] = [] :=
  ⟨rfl, rfl⟩

/-- C3 amended: on any error inside the Authorization Filter the `catch`
branch returns the original unfiltered payload (fail-open), not an
empty or restricted result. -/
theorem claim3_amended_thm (e : Unit) (companyImos : List Json) (resp : List RespItem) :
    filterResponseByCompanyImosCaught (.error e) companyImos resp = resp := rfl

/-- C4: any tenant name containing an admin marker as a case-insensitive
substring resolves to bypass (a pure function of the name, with no
backend input), and the filter returns its input payload unchanged for
every authorized set and payload. -/
theorem claim4_bypass_marker (name marker : String)
    (hmem : marker ∈ adminCompanies)
    (hsub : strContainsSub (asciiLower name) (asciiLower marker) = true) :
    shouldBypassImoFiltering name = true ∧
    ∀ (companyImos : List Json) (response : List RespItem),
      filterResponseByCompanyImos ⟨some name⟩ companyImos response = response := by
  have hb : shouldBypassImoFiltering name = true :=
    List.any_eq_true.mpr ⟨marker, hmem, hsub⟩
  refine ⟨hb, fun companyImos response => ?_⟩
  unfold filterResponseByCompanyImos
  simp [hb]

/-- C4 witness at the name "SYIA-admin". -/
theorem claim4_witness :
    shouldBypassImoFiltering "SYIA-admin" = true ∧
    filterResponseByCompanyImos ⟨some "SYIA-admin"⟩ [.str "1234567"]
        [RespItem.textJson (.obj [("imo", Json.num 9999999)])] =
      [RespItem.textJson (.obj [("imo", Json.num 9999999)])] :=
  have h := claim4_bypass_marker "SYIA-admin" "admin" (by decide) (by decide)
  ⟨h.1, h.2 [.str "1234567"] [RespItem.textJson (.obj [("imo", Json.num 9999999)])]⟩

/-! ## Registry and retry lemmas -/

/-- Lookup passes over a prefix in which the key is absent. -/
theorem lookupAppendNone {β : Type} (l1 l2 : List (String × β)) (k : String)
    (h : l1.lookup k = none) : (l1 ++ l2).lookup k = l2.lookup k := by
  induction l1 with
  | nil => rfl
  | cons q rest ih =>
    obtain ⟨a, b⟩ := q
    cases hbeq : (k == a) with
    | true => simp [List.lookup, hbeq] at h
    | false =>
      simp only [List.lookup, hbeq] at h
      simpa [List.cons_append, List.lookup, hbeq] using ih h

/-- A missing lookup means the key is not among the stored keys. -/
theorem lookupNoneNotMem {β : Type} (l : List (String × β)) (k : String)
    (h : l.lookup k = none) : k ∉ l.map Prod.fst := by
  induction l with
  | nil => simp
  | cons q rest ih =>
    obtain ⟨a, b⟩ := q
    cases hbeq : (k == a) with
    | true => simp [List.lookup, hbeq] at h
    | false =>
      simp only [List.lookup, hbeq] at h
      have hne : k ≠ a := by
        intro hk
        rw [hk] at hbeq
        simp at hbeq
      simp [hne, ih h]

/-- C5 counterexample: two concurrent `connect()` calls on the same
registered handle, interleaved at their `await` points, both pass the
connected guard and both execute the connect sequence — the ghost
counter reaches 2 although both tasks finish on one shared handle. -/
theorem claim5_counterexample :
    (runTwoTasks [true, false, true, false, true, false] initTwoTasks).shared.connectStarts = 2 ∧
    (runTwoTasks [true, false, true, false, true, false] initTwoTasks).pc1 =
      ConnectPc.finished ∧
    (runTwoTasks [true, false, true, false, true, false] initTwoTasks).pc2 =
      ConnectPc.finished :=
  ⟨rfl, rfl, rfl⟩

/-- Repeated registry requests for one key return the registered handle
and leave the registry unchanged. -/
theorem managerGetClient_stable (reg : ConnectionRegistry) (uri dbName : String) :
    managerGetClient (managerGetClient reg uri dbName).2 uri dbName =
      ((managerGetClient reg uri dbName).1, (managerGetClient reg uri dbName).2) := by
  unfold managerGetClient
  cases h : reg.connections.lookup (uri ++ ":" ++ dbName) with
  | some handle => simp [h]
  | none =>
    have happ := lookupAppendNone reg.connections
      [(uri ++ ":" ++ dbName, reg.nextHandle)] (uri ++ ":" ++ dbName) h
    simp [h, happ, List.lookup]

/-- Registering a fresh key keeps the registry keys distinct. -/
theorem managerGetClient_keys_nodup (reg : ConnectionRegistry) (uri dbName : String)
    (hnodup : (reg.connections.map Prod.fst).Nodup) :
    (((managerGetClient reg uri dbName).2).connections.map Prod.fst).Nodup := by
  unfold managerGetClient
  cases h : reg.connections.lookup (uri ++ ":" ++ dbName) with
  | some handle => simpa [h] using hnodup
  | none =>
    simp only [h]
    rw [List.map_append, List.nodup_append]
    refine ⟨hnodup, by simp, ?_⟩
    intro a ha hb
    simp only [List.map_cons, List.map_nil, List.mem_singleton] at hb
    rw [hb] at ha
    exact lookupNoneNotMem reg.connections (uri ++ ":" ++ dbName) h ha

/-- C5 amended: the registry itself is race-free — its lookup-or-create
body is synchronous, so repeated requests for the same key return the
identical handle and leave the registry unchanged, and distinct keys
stay distinct; and a second `connect()` that runs after the first has
completed performs no new connect sequence.  Only two `connect()` calls
that overlap in flight can both run the connect sequence
(`claim5_counterexample`). -/
theorem claim5_amended_thm (reg : ConnectionRegistry) (uri dbName : String)
    (hnodup : (reg.connections.map Prod.fst).Nodup) :
    (managerGetClient (managerGetClient reg uri dbName).2 uri dbName).1 =
      (managerGetClient reg uri dbName).1 ∧
    (managerGetClient (managerGetClient reg uri dbName).2 uri dbName).2 =
      (managerGetClient reg uri dbName).2 ∧
    (((managerGetClient reg uri dbName).2).connections.map Prod.fst).Nodup ∧
    (runTwoTasks [true, true, true, false] initTwoTasks).shared.connectStarts = 1 :=
  ⟨congrArg Prod.fst (managerGetClient_stable reg uri dbName),
   congrArg Prod.snd (managerGetClient_stable reg uri dbName),
   managerGetClient_keys_nodup reg uri dbName hnodup, rfl⟩

/-- C5 amended witness on an empty registry. -/
theorem claim5_witness :
    (managerGetClient (managerGetClient ⟨[], 0⟩ "mongodb:27017" "etl").2
        "mongodb:27017" "etl").1 =
      (managerGetClient ⟨[], 0⟩ "mongodb:27017" "etl").1 ∧
    (runTwoTasks [true, true, true, false] initTwoTasks).shared.connectStarts = 1 :=
  have h := claim5_amended_thm ⟨[], 0⟩ "mongodb:27017" "etl" (by simp)
  ⟨h.1, h.2.2.2⟩

/-- Attempt and delay bounds for the `connectWithRetry` loop. -/
theorem connectWithRetryGo_bounds (outcome : Nat → Bool) (attempt fuel : Nat) :
    (connectWithRetryGo outcome attempt fuel).attempts ≤ fuel ∧
    ∀ d ∈ (connectWithRetryGo outcome attempt fuel).delays, d = 2000 := by
  induction fuel generalizing attempt with
  | zero => exact ⟨Nat.le_refl 0, by simp [connectWithRetryGo]⟩
  | succ m ih =>
    simp only [connectWithRetryGo]
    by_cases h1 : outcome attempt = true
    · simp [h1]
    · rw [Bool.not_eq_true] at h1
      by_cases h2 : (m == 0) = true
      · simp [h1, h2]
      · have := ih (attempt + 1)
        simp only [h1, h2, Bool.false_eq_true, if_false]
        constructor
        · omega
        · intro d hd
          simp only [List.mem_cons] at hd
          rcases hd with hd | hd
          · exact hd
          · exact this.2 d hd

/-- Attempt and delay bounds for the `MongoDBClient.connect` loop. -/
theorem mongoClientConnectGo_bounds (outcome : Nat → Bool) (attempt fuel : Nat) :
    (mongoClientConnectGo outcome attempt fuel).attempts ≤ fuel ∧
    ∀ d ∈ (mongoClientConnectGo outcome attempt fuel).delays, d = 2000 := by
  induction fuel generalizing attempt with
  | zero => exact ⟨Nat.le_refl 0, by simp [mongoClientConnectGo]⟩
  | succ m ih =>
    simp only [mongoClientConnectGo]
    by_cases h1 : outcome attempt = true
    · simp [h1]
    · rw [Bool.not_eq_true] at h1
      by_cases h2 : (m == 0) = true
      · simp [h1, h2]
      · have := ih (attempt + 1)
        simp only [h1, h2, Bool.false_eq_true, if_false]
        constructor
        · omega
        · intro d hd
          simp only [List.mem_cons] at hd
          rcases hd with hd | hd
          · exact hd
          · exact this.2 d hd

/-- C6 counterexample: with every attempt failing, `connectWithRetry`
makes its five attempts with four 2000 ms delays and then resolves to
`null` — no error is thrown — and the `getMongoClient` custom-URI path
then hands the caller a bare empty object in place of a client. -/
theorem claim6_counterexample :
    connectWithRetry (fun _ => false) =
      { client := none, attempts := 5, delays := [2000, 2000, 2000, 2000] } ∧
    getMongoClientCustomUri (fun _ => false) = JsClient.emptyObject :=
  ⟨rfl, rfl⟩

/-- C6 amended: both connect loops make at most five attempts with
2000 ms between consecutive attempts; on exhaustion
`MongoDBClient.connect` throws a connection error and leaves the handle
fully disconnected (`client` null, `isConnected` false) — no half-open
handle — while `connectWithRetry` instead resolves to `null` without
an error. -/
theorem claim6_amended_thm (st : MongoClientHandle) (outcome : Nat → Bool) :
    (mongoClientConnect st outcome).attempts ≤ 5 ∧
    (∀ d ∈ (mongoClientConnect st outcome).delays, d = 2000) ∧
    (connectWithRetry outcome).attempts ≤ 5 ∧
    (∀ d ∈ (connectWithRetry outcome).delays, d = 2000) ∧
    (mongoClientConnect ⟨none, false⟩ (fun _ => false)).result =
      Except.error "Failed to connect to MongoDB after 5 attempts" ∧
    (mongoClientConnect ⟨none, false⟩ (fun _ => false)).final.client = none ∧
    (mongoClientConnect ⟨none, false⟩ (fun _ => false)).final.isConnected = false ∧
    (connectWithRetry (fun _ => false)).client = none := by
  refine ⟨?_, ?_, ?_, ?_, rfl, rfl, rfl, rfl⟩
  · unfold mongoClientConnect
    by_cases hg : (st.isConnected ∧ st.client.isSome)
    · simp [hg]
    · simp only [if_neg hg]
      exact le_trans (mongoClientConnectGo_bounds outcome 1 5).1 (by omega)
  · unfold mongoClientConnect
    by_cases hg : (st.isConnected ∧ st.client.isSome)
    · simp [hg]
    · simp only [if_neg hg]
      exact (mongoClientConnectGo_bounds outcome 1 5).2
  · exact (connectWithRetryGo_bounds outcome 1 5).1
  · exact (connectWithRetryGo_bounds outcome 1 5).2

/-- C6 amended witness at the all-failing outcome. -/
theorem claim6_witness :
    (mongoClientConnect ⟨none, false⟩ (fun _ => false)).attempts ≤ 5 ∧
    (connectWithRetry (fun _ => false)).attempts ≤ 5 ∧
    (mongoClientConnect ⟨none, false⟩ (fun _ => false)).final.client = none :=
  have h := claim6_amended_thm ⟨none, false⟩ (fun _ => false)
  ⟨h.1, h.2.2.1, h.2.2.2.2.2.1⟩

/-- C7 counterexample: a record key and the single authorized entry both
arrive as the number 9123456 — the same numeric identifier — yet
`isValidImoForCompany` rejects, because its membership test compares the
canonical string of the key against the entries under SameValueZero and
a numeric entry never equals a string. -/
theorem claim7_counterexample :
    jsToNumber (.num 9123456) = some 9123456 ∧
    sameValueAsStr (Json.num 9123456) "9123456" = false ∧
    isValidImoForCompany (.num 9123456) [.num 9123456] = false ∧
    isVesselAuthorizedForCompanyGeneric (some "acme") [.num 9123456] (.num 9123456) = true :=
  ⟨rfl, rfl, rfl, rfl⟩

/-- C7 amended: the string-vs-number robustness holds for
`isVesselAuthorizedForCompanyGeneric`, which coerces both sides with
`Number`; for `isValidImoForCompany` the record key may arrive as a
string or a number, but the authorized entries must be the canonical
7-digit strings — a numerically equal entry of another form is
rejected. -/
theorem claim7_amended_thm (companyName : String) (imos : List Json) (v : Json) (n : Int) :
    (imos ≠ [] → (∀ e ∈ imos, jsToNumber e = some n) → jsToNumber v = some n →
      isVesselAuthorizedForCompanyGeneric (some companyName) imos v = true) ∧
    (imos ≠ [] → isSevenDigitImo (jsString v) = true → Json.str (jsString v) ∈ imos →
      isValidImoForCompany v imos = true) := by
  constructor
  · intro hne hall hv
    unfold isVesselAuthorizedForCompanyGeneric
    cases hor : (optFalsyStr (some companyName) ||
        shouldBypassImoFiltering ((some companyName).getD "")) with
    | true => rfl
    | false =>
      have hlen : (imos.length == 0) = false := by
        simp [List.length_eq_zero]
        exact hne
      rw [hlen]
      show (imos.map jsToNumber).contains (jsToNumber v) = true
      rw [hv]
      obtain ⟨e0, he0⟩ := List.exists_mem_of_ne_nil imos hne
      have hmem : (some n) ∈ imos.map jsToNumber :=
        List.mem_map.mpr ⟨e0, he0, hall e0 he0⟩
      exact List.elem_eq_true_of_mem hmem
  · intro hne h7 hmem
    unfold isValidImoForCompany
    have hlen : (imos.length == 0) = false := by
      simp [List.length_eq_zero]
      exact hne
    simp only [h7, Bool.not_true, Bool.false_eq_true, if_false, hlen]
    apply List.any_eq_true.mpr
    exact ⟨Json.str (jsString v), hmem, by simp [sameValueAsStr]⟩

/-- C7 amended witness: a string key against its canonical string entry,
and a numeric key against numeric entries through the generic helper. -/
theorem claim7_witness :
    isVesselAuthorizedForCompanyGeneric (some "acme") [.str "9123456"] (.num 9123456) = true ∧
    isValidImoForCompany (.num 9123456) [.str "9123456"] = true :=
  have h1 := (claim7_amended_thm "acme" [.str "9123456"] (.num 9123456) 9123456).1
    (by simp) (by intro e he; simp only [List.mem_singleton] at he; rw [he]; rfl) rfl
  have h2 := (claim7_amended_thm "acme" [.str "9123456"] (.num 9123456) 9123456).2
    (by simp) (by decide)
    (by rw [show jsString (.num 9123456) = "9123456" from rfl]
        exact List.mem_singleton.mpr rfl)
  ⟨h1, h2⟩

/-- C8 counterexample: a node carrying two recognized aliases — `imo`
with an authorized key and `vesselImo` with an unauthorized one — passes
the check: only the first alias present is evaluated, and the second
alias (a scalar entry) is skipped by the traversal. -/
theorem claim8_counterexample :
    "vesselImo" ∈ IMO_FIELD_NAMES ∧
    isValidImoForCompany (.num 9999999) [.str "9123456"] = false ∧
    checkForUnauthorizedImo [.str "9123456"]
        (.obj [("imo", Json.num 9123456), ("vesselImo", Json.num 9999999)]) = none ∧
    filterResponseByCompanyImos ⟨some "acme"⟩ [.str "9123456"]
        [RespItem.textJson (.obj [("imo", Json.num 9123456), ("vesselImo", Json.num 9999999)])] =
      [RespItem.textJson (.obj [("imo", Json.num 9123456), ("vesselImo", Json.num 9999999)])] :=
  ⟨by decide, rfl, rfl, rfl⟩

/-- C8 amended: at each object node only the first alias of
`IMO_FIELD_NAMES` present with a non-null value is evaluated; once it
passes, the node check reduces to the entry loop, in which further
scalar-valued aliases are skipped entirely; only when the first alias
fails is the node rejected, at that alias. -/
theorem claim8_amended_thm (imos : List Json) (fs : List (String × Json))
    (name : String) (v : Json) :
    (findImoField (.obj fs) = some (name, v) → isValidImoForCompany v imos = true →
      checkForUnauthorizedImo imos (.obj fs) = checkEntriesForImo imos fs) ∧
    (∀ (k : String) (m : Int) (rest : List (String × Json)),
      checkEntriesForImo imos ((k, .num m) :: rest) = checkEntriesForImo imos rest) ∧
    (findImoField (.obj fs) = some (name, v) → isValidImoForCompany v imos = false →
      checkForUnauthorizedImo imos (.obj fs) = some (name ++ ": " ++ jsString v)) := by
  refine ⟨?_, ?_, ?_⟩
  · intro hf hvalid
    rw [check_obj]
    unfold checkDirectImoField
    rw [hf]
    simp [hvalid]
  · intro k m rest
    rfl
  · intro hf hinvalid
    rw [check_obj]
    unfold checkDirectImoField
    rw [hf]
    simp [hinvalid]

/-- C8 amended witness at the two-alias node. -/
theorem claim8_witness :
    checkForUnauthorizedImo [.str "9123456"]
        (.obj [("imo", Json.num 9123456), ("vesselImo", Json.num 9999999)]) =
      checkEntriesForImo [.str "9123456"]
        [("imo", Json.num 9123456), ("vesselImo", Json.num 9999999)] ∧
    checkForUnauthorizedImo [.str "9123456"] (.obj [("imo", Json.num 9999999)]) =
      some "imo: 9999999" :=
  have h1 := (claim8_amended_thm [.str "9123456"]
    [("imo", Json.num 9123456), ("vesselImo", Json.num 9999999)] "imo" (.num 9123456)).1
    rfl rfl
  have h2 := (claim8_amended_thm [.str "9123456"]
    [("imo", Json.num 9999999)] "imo" (.num 9999999)).2.2 rfl rfl
  ⟨h1, h2⟩

/-- C9: filtering is idempotent — filtering an already-filtered payload
with the same tenant configuration and authorized set yields the
identical result.  The well-formedness hypothesis states that parsed
text items carry each object key once, as every value produced by
`JSON.parse` does. -/
theorem claim9_filter_idempotent (cfg : McpConfig) (companyImos : List Json)
    (response : List RespItem) (h : ∀ item ∈ response, wfRespItem item) :
    filterResponseByCompanyImos cfg companyImos
        (filterResponseByCompanyImos cfg companyImos response) =
      filterResponseByCompanyImos cfg companyImos response := by
  unfold filterResponseByCompanyImos
  by_cases hb : shouldBypassImoFiltering (cfg.companyName.getD "") = true
  · simp [hb]
  · rw [Bool.not_eq_true] at hb
    by_cases hlen : (companyImos.length == 0) = true
    · simp [hb, hlen]
    · rw [Bool.not_eq_true] at hlen
      simp only [hb, hlen, Bool.false_eq_true, if_false]
      exact filterRespValue_idem companyImos response h

/-- C9 witness: a concrete run that removes a record and is stable on a
second pass. -/
theorem claim9_witness :
    filterResponseByCompanyImos ⟨some "acme"⟩ [.str "9123456"]
        (filterResponseByCompanyImos ⟨some "acme"⟩ [.str "9123456"]
          [RespItem.textJson (.obj [("imo", Json.num 9999999)]),
           RespItem.textRaw "plain narrative"]) =
      filterResponseByCompanyImos ⟨some "acme"⟩ [.str "9123456"]
        [RespItem.textJson (.obj [("imo", Json.num 9999999)]),
         RespItem.textRaw "plain narrative"] :=
  claim9_filter_idempotent ⟨some "acme"⟩ [.str "9123456"]
    [RespItem.textJson (.obj [("imo", Json.num 9999999)]),
     RespItem.textRaw "plain narrative"]
    (by
      intro item hitem
      simp only [List.mem_cons, List.mem_singleton] at hitem
      rcases hitem with h1 | h1 | h1
      · rw [h1]
        exact ⟨by simp, trivial, trivial⟩
      · rw [h1]; trivial
      · simp at h1)

/-- C10 counterexample: a payload with no ownership field anywhere but
with a null-valued object field is changed by the filter — the field is
dropped — for a non-bypass tenant with a non-empty authorized set. -/
theorem claim10_counterexample :
    hasImoAnywhere (.obj [("a", Json.null)]) = false ∧
    shouldBypassImoFiltering "acme" = false ∧
    filterResponseByCompanyImos ⟨some "acme"⟩ [.str "9123456"]
        [RespItem.textJson (.obj [("a", Json.null)])] =
      [RespItem.textJson (.obj [])] ∧
    [RespItem.textJson (.obj ([] : List (String × Json)))] ≠
      [RespItem.textJson (.obj [("a", Json.null)])] := by
  refine ⟨rfl, by decide, rfl, ?_⟩
  simp

/-- C10 amended: a payload whose items carry no ownership field anywhere
passes through the filter unchanged for every tenant configuration and
authorized set, provided its parsed structures also have no null-valued
object field (outside arrays) and no item is the bare JSON null — the
object-copy loop drops null fields and a null item, so those payloads
are rewritten even without any ownership key. -/
theorem claim10_amended_thm (cfg : McpConfig) (companyImos : List Json)
    (response : List RespItem)
    (h : ∀ item ∈ response,
      (∀ j, item = RespItem.textJson j →
        hasImoAnywhere j = false ∧ nullFreeSpine j = true ∧ jsonIsNull j = false) ∧
      (∀ j, item = RespItem.other j → hasImoAnywhere j = false)) :
    filterResponseByCompanyImos cfg companyImos response = response := by
  unfold filterResponseByCompanyImos
  by_cases hb : shouldBypassImoFiltering (cfg.companyName.getD "") = true
  · simp [hb]
  · rw [Bool.not_eq_true] at hb
    by_cases hlen : (companyImos.length == 0) = true
    · simp [hb, hlen]
    · rw [Bool.not_eq_true] at hlen
      simp only [hb, hlen, Bool.false_eq_true, if_false]
      show filterRespValue companyImos response = response
      induction response with
      | nil => rfl
      | cons item rest ih =>
        have hrest := ih fun x hx => h x (by simp [hx])
        cases item with
        | textJson j =>
          have hj := (h (.textJson j) (by simp)).1 j rfl
          rw [filterRespValue_textJson,
            fRCValue_id_of_no_imo companyImos j hj.1 hj.2.1,
            if_neg (by simp [hj.2.2])]
          exact congrArg _ hrest
        | textRaw t =>
          rw [filterRespValue_textRaw]
          exact congrArg _ hrest
        | other j =>
          have hj := (h (.other j) (by simp)).2 j rfl
          rw [filterRespValue_other, check_none_of_no_imo companyImos j hj]
          exact congrArg _ hrest

/-- C10 amended witness on a nested unkeyed payload with a null inside
an array (where nulls are untouched). -/
theorem claim10_witness :
    filterResponseByCompanyImos ⟨some "acme"⟩ [.str "9123456"]
        [RespItem.textJson (.obj [("a", Json.arr [Json.null, Json.num 1])]),
         RespItem.textRaw "note"] =
      [RespItem.textJson (.obj [("a", Json.arr [Json.null, Json.num 1])]),
       RespItem.textRaw "note"] :=
  claim10_amended_thm ⟨some "acme"⟩ [.str "9123456"]
    [RespItem.textJson (.obj [("a", Json.arr [Json.null, Json.num 1])]),
     RespItem.textRaw "note"]
    (by
      intro item hitem
      simp only [List.mem_cons, List.mem_singleton] at hitem
      rcases hitem with h1 | h1 | h1
      · subst h1
        constructor
        · intro j hj
          cases hj
          exact ⟨rfl, rfl, rfl⟩
        · intro j hj
          cases hj
      · subst h1
        constructor
        · intro j hj
          cases hj
        · intro j hj
          cases hj
      · simp at h1)
